import Mathlib

/-!
Verification of the workflow dependency-graph engine of the month-end close
manager (FastAPI backend under `backend/`).  The dependency data lives in the
self-referential association tables `task_dependencies` and
`task_template_dependencies`; the mutating endpoints modelled here are
`update_task_dependencies` (PUT /tasks/{id}/dependencies, backend/routers/tasks.py),
the `dependency_ids` branch of `update_task` (PUT /tasks/{id}),
`update_template_dependencies` (PUT /task-templates/{id}/dependencies),
the roll-forward part of `create_period` (backend/routers/periods.py) together
with `_compute_due_datetime`, and the critical-path ranking of
`get_dashboard_stats` (backend/routers/dashboard.py).

A scope's dependency graph is embedded as an association list from a task id to
its list of dependency ids (the rows of the association table grouped by
`task_id`).  Python's recursive `has_circular_dependency` with its shared
`visited` set is embedded as a fuel-indexed recursion (`hcdFuel`/`hcdFold`);
the fuel `fuelBound db` is large enough that it is never exhausted, which is
proved below (`hcd_true_iff_reaches` characterises the traversal exactly, with
no acyclicity assumption on the data).
-/

/-- One scope of the dependency graph: each entry is `(task_id, dependency ids)`,
i.e. the adjacency list read off the `task_dependencies` association table. -/
abbrev DepDB := List (Nat × List Nat)

/-- `db.query(Task).filter(Task.id == t).first()`, restricted to the data the
graph algorithms read: the dependency list of the task, if the task exists. -/
def lookupDeps (db : DepDB) (t : Nat) : Option (List Nat) :=
  (db.find? (fun p => p.1 == t)).map (fun p => p.2)

/-- The dependency ids of task `t` (`[dep.id for dep in task.dependencies]`);
a missing task has no dependencies. -/
def depsOf (db : DepDB) (t : Nat) : List Nat :=
  (lookupDeps db t).getD []

/-- Whether a task with id `t` exists (`.first()` returned a row). -/
def nodeExists (db : DepDB) (t : Nat) : Bool :=
  (db.find? (fun p => p.1 == t)).isSome

/-- Total number of dependency edges stored in the scope. -/
def totalDeps (db : DepDB) : Nat :=
  (db.map (fun p => p.2.length)).sum

/-- Fuel bound under which the embedded DFS always runs to completion: the
visited set can only ever receive the initial node plus ids occurring in
dependency lists, so `totalDeps db + 2` nested levels suffice. -/
def fuelBound (db : DepDB) : Nat := totalDeps db + 2

/-- The `for dep in task.dependencies:` loop of `has_circular_dependency`,
short-circuiting on the first `True`; the recursive call on each dependency is
passed in as `f`. -/
def hcdFoldGo (f : Nat → List Nat → Bool × List Nat) : List Nat → List Nat → Bool × List Nat
  | [], vis => (false, vis)
  | d :: ds, vis =>
    match f d vis with
    | (true, vis') => (true, vis')
    | (false, vis') => hcdFoldGo f ds vis'

/-- Shallow embedding of the Python closure `has_circular_dependency(task_id,
target_id, visited)` from `update_task_dependencies`: return `True` the moment
`target` is hit, return `False` on an already-visited node, otherwise mark the
node visited and recurse into its dependency list.  The shared mutable
`visited` set is threaded explicitly; the extra `fuel` argument makes the
recursion structural and is shown elsewhere never to run out at `fuelBound`. -/
def hcdFuel (db : DepDB) (target : Nat) : Nat → Nat → List Nat → Bool × List Nat
  | 0, _, vis => (false, vis)
  | fuel + 1, t, vis =>
    if t = target then (true, vis)
    else if t ∈ vis then (false, vis)
    else
      match lookupDeps db t with
      | none => (false, t :: vis)
      | some ds => hcdFoldGo (hcdFuel db target fuel) ds (t :: vis)

/-- The dependency loop at a given fuel level. -/
def hcdFold (db : DepDB) (target : Nat) (fuel : Nat) : List Nat → List Nat → Bool × List Nat :=
  hcdFoldGo (hcdFuel db target fuel)

/-- `has_circular_dependency(task_id, target_id)` as called by the endpoints:
a fresh empty visited set for every candidate. -/
def has_circular_dependency (db : DepDB) (task_id target_id : Nat) : Bool :=
  (hcdFuel db target_id (fuelBound db) task_id []).1

/-- Reachability along `dependsOn` edges: `Reaches db a b` holds when there is
a (possibly empty) directed path from `a` to `b` through dependency lists. -/
inductive Reaches (db : DepDB) : Nat → Nat → Prop
  | refl (a : Nat) : Reaches db a a
  | step {a b c : Nat} : b ∈ depsOf db a → Reaches db b c → Reaches db a c

/-- The scope contains a directed cycle: some edge `a → b` closes a path from
`b` back to `a` (this covers self-loops, with `b = a`). -/
def HasCycle (db : DepDB) : Prop :=
  ∃ a b, b ∈ depsOf db a ∧ Reaches db b a

/-- The scope's `dependsOn` graph is a DAG. -/
def Acyclic (db : DepDB) : Prop := ¬ HasCycle db


/-- All ids occurring in some dependency list of the scope; together with the
start node these are the only ids the traversal can ever visit. -/
def allDepIds (db : DepDB) : List Nat := (db.map (fun p => p.2)).flatten

mutual

theorem hcdFuel_mono (db : DepDB) (target : Nat) :
    ∀ fuel t vis, vis ⊆ (hcdFuel db target fuel t vis).2
  | 0, _, _ => by simp [hcdFuel]
  | fuel + 1, t, vis => by
    rw [hcdFuel]
    split
    · exact List.Subset.refl _
    · split
      · exact List.Subset.refl _
      · split
        · exact List.subset_cons_self _ _
        · exact fun x hx => hcdFold_mono db target fuel _ (t :: vis) (List.mem_cons_of_mem _ hx)
termination_by fuel _ _ => (fuel, 0)

theorem hcdFold_mono (db : DepDB) (target : Nat) :
    ∀ fuel ds vis, vis ⊆ (hcdFold db target fuel ds vis).2
  | _, [], _ => by simp [hcdFold, hcdFoldGo]
  | fuel, d :: ds, vis => by
    rw [hcdFold, hcdFoldGo]
    have h1 := hcdFuel_mono db target fuel d vis
    split
    · next heq => rw [heq] at h1; exact h1
    · next vis' heq =>
        have h2 := hcdFold_mono db target fuel ds vis'
        rw [heq] at h1
        exact fun x hx => h2 (h1 hx)
termination_by fuel ds _ => (fuel, ds.length + 1)

end

mutual

theorem hcdFuel_target_free (db : DepDB) (target : Nat) :
    ∀ fuel t vis, target ∉ vis → target ∉ (hcdFuel db target fuel t vis).2
  | 0, _, _ => by simp [hcdFuel]
  | fuel + 1, t, vis => by
    intro hvis
    rw [hcdFuel]
    split
    · exact hvis
    · split
      · exact hvis
      · next h1 _ =>
          split
          · simp only [List.mem_cons]
            rintro (rfl | h)
            · exact h1 rfl
            · exact hvis h
          · refine hcdFold_target_free db target fuel _ (t :: vis) ?_
            simp only [List.mem_cons]
            rintro (rfl | h)
            · exact h1 rfl
            · exact hvis h
termination_by fuel _ _ => (fuel, 0)

theorem hcdFold_target_free (db : DepDB) (target : Nat) :
    ∀ fuel ds vis, target ∉ vis → target ∉ (hcdFold db target fuel ds vis).2
  | _, [], _ => by simp [hcdFold, hcdFoldGo]
  | fuel, d :: ds, vis => by
    intro hvis
    rw [hcdFold, hcdFoldGo]
    have h1 := hcdFuel_target_free db target fuel d vis hvis
    split
    · next heq => rw [heq] at h1; exact h1
    · next vis' heq =>
        rw [heq] at h1
        exact hcdFold_target_free db target fuel ds vis' h1
termination_by fuel ds _ => (fuel, ds.length + 1)

end

mutual

theorem hcdFuel_sound (db : DepDB) (target : Nat) :
    ∀ fuel t vis, (hcdFuel db target fuel t vis).1 = true → Reaches db t target
  | 0, _, _ => by simp [hcdFuel]
  | fuel + 1, t, vis => by
    rw [hcdFuel]
    split
    · next h => intro _; exact h ▸ Reaches.refl t
    · split
      · simp
      · split
        · simp
        · next ds hds =>
            intro h
            obtain ⟨d, hd, hr⟩ := hcdFold_sound db target fuel ds (t :: vis) h
            have : depsOf db t = ds := by simp [depsOf, hds]
            exact Reaches.step (this ▸ hd) hr
termination_by fuel _ _ => (fuel, 0)

theorem hcdFold_sound (db : DepDB) (target : Nat) :
    ∀ fuel ds vis, (hcdFold db target fuel ds vis).1 = true →
      ∃ d ∈ ds, Reaches db d target
  | _, [], _ => by simp [hcdFold, hcdFoldGo]
  | fuel, d :: ds, vis => by
    rw [hcdFold, hcdFoldGo]
    split
    · next heq =>
        intro _
        exact ⟨d, List.mem_cons_self d ds, hcdFuel_sound db target fuel d vis (by rw [heq])⟩
    · next vis' heq =>
        intro h
        obtain ⟨d', hd', hr⟩ := hcdFold_sound db target fuel ds vis' h
        exact ⟨d', List.mem_cons_of_mem _ hd', hr⟩
termination_by fuel ds _ => (fuel, ds.length + 1)

end

theorem toFinset_subset_of_subset {l1 l2 : List Nat} (h : l1 ⊆ l2) :
    l1.toFinset ⊆ l2.toFinset := by
  intro x hx
  rw [List.mem_toFinset] at hx ⊢
  exact h hx

mutual

theorem hcdFuel_closure (db : DepDB) (target : Nat) :
    ∀ fuel t vis (U : Finset Nat),
      (∀ p ∈ db, ∀ d ∈ p.2, d ∈ U) → t ∈ U →
      (U \ vis.toFinset).card + 1 ≤ fuel →
      (hcdFuel db target fuel t vis).1 = false →
      t ∈ (hcdFuel db target fuel t vis).2 ∧
      ∀ x ∈ (hcdFuel db target fuel t vis).2, x ∉ vis →
        ∀ d ∈ depsOf db x, d ∈ (hcdFuel db target fuel t vis).2
  | 0, t, vis, U => by
    intro _ _ hfuel
    omega
  | fuel + 1, t, vis, U => by
    intro hU ht hfuel
    rw [hcdFuel]
    split
    · simp
    · split
      · next _ hmem =>
          intro _
          refine ⟨hmem, ?_⟩
          intro x hx hxv
          exact absurd hx hxv
      · next hne hmem =>
          have htv : t ∉ vis := hmem
          have hcard : (U \ (t :: vis).toFinset).card + 1 ≤ fuel := by
            have h1 : (t :: vis).toFinset = insert t vis.toFinset := by
              simp [List.toFinset_cons]
            have h2 : U \ (t :: vis).toFinset = (U \ vis.toFinset).erase t := by
              rw [h1, Finset.sdiff_insert]
            have h3 : t ∈ U \ vis.toFinset := by
              rw [Finset.mem_sdiff, List.mem_toFinset]
              exact ⟨ht, htv⟩
            have h4 := Finset.card_erase_of_mem h3
            have h5 : 1 ≤ (U \ vis.toFinset).card := Finset.card_pos.mpr ⟨t, h3⟩
            rw [h2, h4]
            omega
          split
          · next hlook =>
              intro _
              refine ⟨List.mem_cons_self t vis, ?_⟩
              intro x hx hxv
              have hxt : x = t := by
                rcases List.mem_cons.mp hx with h | h
                · exact h
                · exact absurd h hxv
              subst hxt
              have hnil : depsOf db x = [] := by simp [depsOf, hlook]
              intro d hd
              rw [hnil] at hd
              exact absurd hd (List.not_mem_nil d)
          · next ds hlook =>
              intro hres
              have hds : ∀ d ∈ ds, d ∈ U := by
                intro d hd
                obtain ⟨q, hq, hq2⟩ := Option.map_eq_some'.mp hlook
                exact hU q (List.mem_of_find?_eq_some hq) d (hq2 ▸ hd)
              have hmain := hcdFold_closure db target fuel ds (t :: vis) U hU hds hcard hres
              have hmono := hcdFold_mono db target fuel ds (t :: vis)
              refine ⟨hmono (List.mem_cons_self t vis), ?_⟩
              intro x hx hxv
              by_cases hxt : x = t
              · subst hxt
                have : depsOf db x = ds := by simp [depsOf, hlook]
                rw [this]
                exact hmain.1
              · exact hmain.2 x hx (by
                  simp only [List.mem_cons]
                  rintro (h | h)
                  · exact hxt h
                  · exact hxv h)
termination_by fuel _ _ _ => (fuel, 0)

theorem hcdFold_closure (db : DepDB) (target : Nat) :
    ∀ fuel ds vis (U : Finset Nat),
      (∀ p ∈ db, ∀ d ∈ p.2, d ∈ U) → (∀ d ∈ ds, d ∈ U) →
      (U \ vis.toFinset).card + 1 ≤ fuel →
      (hcdFold db target fuel ds vis).1 = false →
      (∀ d ∈ ds, d ∈ (hcdFold db target fuel ds vis).2) ∧
      ∀ x ∈ (hcdFold db target fuel ds vis).2, x ∉ vis →
        ∀ d ∈ depsOf db x, d ∈ (hcdFold db target fuel ds vis).2
  | fuel, [], vis, U => by
    intro _ _ _ _
    refine ⟨by simp, ?_⟩
    intro x hx hxv
    rw [hcdFold, hcdFoldGo] at hx
    exact absurd hx hxv
  | fuel, d :: ds, vis, U => by
    intro hU hds hfuel
    rw [hcdFold, hcdFoldGo]
    split
    · simp
    · next vis' heq =>
        intro hres
        have h1 := hcdFuel_closure db target fuel d vis U hU (hds d (List.mem_cons_self d ds))
          hfuel (by rw [heq])
        rw [heq] at h1
        have hmono1 : vis ⊆ vis' := by
          have := hcdFuel_mono db target fuel d vis
          rw [heq] at this
          exact this
        have hfuel' : (U \ vis'.toFinset).card + 1 ≤ fuel := by
          have hsub : U \ vis'.toFinset ⊆ U \ vis.toFinset :=
            Finset.sdiff_subset_sdiff (le_refl U) (toFinset_subset_of_subset hmono1)
          have := Finset.card_le_card hsub
          omega
        have h2 := hcdFold_closure db target fuel ds vis' U hU
          (fun d' hd' => hds d' (List.mem_cons_of_mem _ hd')) hfuel' hres
        have hmono2 := hcdFold_mono db target fuel ds vis'
        refine ⟨?_, ?_⟩
        · intro d' hd'
          rcases List.mem_cons.mp hd' with h | h
          · exact hmono2 (h ▸ h1.1)
          · exact h2.1 d' h
        · intro x hx hxv
          by_cases hxvis' : x ∈ vis'
          · intro dd hdd
            exact hmono2 (h1.2 x hxvis' hxv dd hdd)
          · exact h2.2 x hx hxvis'
termination_by fuel ds _ _ => (fuel, ds.length + 1)

end

theorem reaches_mem_closed (db : DepDB) {S : List Nat}
    (hclosed : ∀ x ∈ S, ∀ d ∈ depsOf db x, d ∈ S) :
    ∀ {x y : Nat}, Reaches db x y → x ∈ S → y ∈ S := by
  intro x y hr
  induction hr with
  | refl a => exact id
  | step hb _ ih => exact fun hx => ih (hclosed _ hx _ hb)

theorem hcd_false_not_reaches {db : DepDB} {t target : Nat}
    (h : has_circular_dependency db t target = false) : ¬ Reaches db t target := by
  have hU : ∀ p ∈ db, ∀ d ∈ p.2, d ∈ insert t (allDepIds db).toFinset := by
    intro p hp d hd
    refine Finset.mem_insert_of_mem ?_
    rw [List.mem_toFinset]
    exact List.mem_flatten.mpr ⟨p.2, List.mem_map_of_mem _ hp, hd⟩
  have hlen : (allDepIds db).length = totalDeps db := by
    rw [allDepIds, List.length_flatten, List.map_map, totalDeps]
    rfl
  have hfuel : ((insert t (allDepIds db).toFinset) \ ([] : List Nat).toFinset).card + 1 ≤
      fuelBound db := by
    have h1 : ([] : List Nat).toFinset = (∅ : Finset Nat) := rfl
    rw [h1, Finset.sdiff_empty]
    have h2 := Finset.card_insert_le t (allDepIds db).toFinset
    have h3 := (allDepIds db).toFinset_card_le
    rw [fuelBound]
    omega
  have hc := hcdFuel_closure db target (fuelBound db) t []
    (insert t (allDepIds db).toFinset) hU (Finset.mem_insert_self t _) hfuel h
  have htf := hcdFuel_target_free db target (fuelBound db) t []
    (List.not_mem_nil target)
  intro hr
  have hclosed : ∀ x ∈ (hcdFuel db target (fuelBound db) t []).2,
      ∀ d ∈ depsOf db x, d ∈ (hcdFuel db target (fuelBound db) t []).2 :=
    fun x hx => hc.2 x hx (List.not_mem_nil x)
  exact htf (reaches_mem_closed db hclosed hr hc.1)

theorem hcd_true_iff_reaches (db : DepDB) (t target : Nat) :
    has_circular_dependency db t target = true ↔ Reaches db t target := by
  constructor
  · exact hcdFuel_sound db target (fuelBound db) t []
  · intro hr
    by_contra hfalse
    exact hcd_false_not_reaches (Bool.not_eq_true _ ▸ hfalse : _) hr

/-- Python's `sorted` on a list of ids (a stable ascending sort, like
`list.sort`/`sorted`). -/
def sortIds (l : List Nat) : List Nat := l.insertionSort (fun a b => a ≤ b)

/-- The failure modes of the dependency endpoints: HTTP 404 ("Task not found")
and HTTP 400 ("Circular dependency detected: task {id} creates a cycle"). -/
inductive DepErr where
  | notFound : DepErr
  | circular (offending : Nat) : DepErr
deriving DecidableEq, Repr

/-- Result of a successful `update_task_dependencies` call: the new scope
state, whether a `dependencies_updated` audit record was written by
`log_task_change`, and the `dependency_ids` field of the JSON response. -/
structure UpdResult where
  db : DepDB
  audit : Bool
  resp : List Nat
deriving DecidableEq, Repr

/-- `task.dependencies = []` followed by appending each dependency: the entry
of `t` is replaced by `deps`; other entries are untouched. -/
def setEntry (db : DepDB) (t : Nat) (deps : List Nat) : DepDB :=
  db.map (fun p => if p.1 == t then (p.1, deps) else p)

/-- PUT /tasks/{task_id}/dependencies (`update_task_dependencies`,
backend/routers/tasks.py): 404 if the task does not exist; validate every
candidate with `has_circular_dependency` against the pre-edit graph, failing
on the first offender; then replace the dependency list with the candidates
that exist (non-existent ids silently skipped), emit an audit record iff
`sorted(old ids) != sorted(dependency_ids)`, and answer with the raw
`dependency_ids` list. -/
def update_task_dependencies (db : DepDB) (task_id : Nat) (dependency_ids : List Nat) :
    Except DepErr UpdResult :=
  if nodeExists db task_id then
    match dependency_ids.find? (fun d => has_circular_dependency db d task_id) with
    | some d => .error (.circular d)
    | none =>
      let old_ids := sortIds (depsOf db task_id)
      let kept := dependency_ids.filter (fun d => nodeExists db d)
      let new_ids := sortIds dependency_ids
      .ok { db := setEntry db task_id kept,
            audit := decide (old_ids ≠ new_ids),
            resp := dependency_ids }
  else .error .notFound

/-- The scope state after a call, a failed call leaving it unchanged (the
endpoint raises before any mutation). -/
def applyTaskDeps (db : DepDB) (t : Nat) (ids : List Nat) : DepDB :=
  match update_task_dependencies db t ids with
  | .ok r => r.db
  | .error _ => db

/-- The `dependency_ids` branch of `update_task` (PUT /tasks/{task_id},
backend/routers/tasks.py lines 731-754): replaces the dependency list with the
existing candidates, with NO cycle check (only an audit comparison, which does
not affect the graph). -/
def update_task_dep_branch (db : DepDB) (task_id : Nat) (dependency_ids : List Nat) : DepDB :=
  setEntry db task_id (dependency_ids.filter (fun d => nodeExists db d))

/-- PUT /task-templates/{template_id}/dependencies
(`update_template_dependencies`, backend/routers/task_templates.py): the code
is a verbatim copy of `update_task_dependencies` acting on the template scope,
minus the audit logging; only the resulting scope state is relevant here. -/
def update_template_dependencies (db : DepDB) (template_id : Nat)
    (dependency_ids : List Nat) : Except DepErr DepDB :=
  (update_task_dependencies db template_id dependency_ids).map (fun r => r.db)

theorem find?_setEntry (db : DepDB) (t : Nat) (l : List Nat) (x : Nat) :
    (setEntry db t l).find? (fun p => p.1 == x) =
      (db.find? (fun p => p.1 == x)).map (fun p => if p.1 == t then (p.1, l) else p) := by
  rw [setEntry, List.find?_map]
  have h : ((fun p : Nat × List Nat => p.1 == x) ∘
      (fun p : Nat × List Nat => if p.1 == t then (p.1, l) else p)) =
      (fun p : Nat × List Nat => p.1 == x) := by
    funext p
    simp only [Function.comp]
    split <;> rfl
  rw [h]

theorem nodeExists_setEntry (db : DepDB) (t : Nat) (l : List Nat) (x : Nat) :
    nodeExists (setEntry db t l) x = nodeExists db x := by
  rw [nodeExists, nodeExists, find?_setEntry]
  cases db.find? (fun p => p.1 == x) <;> rfl

theorem depsOf_setEntry_self {db : DepDB} {t : Nat} (l : List Nat)
    (h : nodeExists db t = true) : depsOf (setEntry db t l) t = l := by
  rw [nodeExists, Option.isSome_iff_exists] at h
  obtain ⟨q, hq⟩ := h
  have hqt := List.find?_some hq
  rw [depsOf, lookupDeps, find?_setEntry, hq]
  simp only [Option.map_some']
  rw [if_pos hqt]
  rfl

theorem depsOf_setEntry_ne {db : DepDB} {t x : Nat} (l : List Nat) (h : x ≠ t) :
    depsOf (setEntry db t l) x = depsOf db x := by
  rw [depsOf, depsOf, lookupDeps, lookupDeps, find?_setEntry]
  cases hq : db.find? (fun p => p.1 == x) with
  | none => rfl
  | some q =>
    have hqx := List.find?_some hq
    have hqx' : q.1 = x := by simpa using hqx
    have hqt : ¬ ((q.1 == t) = true) := by
      simp [hqx']
      exact h
    simp only [Option.map_some']
    rw [if_neg hqt]

theorem setEntry_setEntry (db : DepDB) (t : Nat) (l l' : List Nat) :
    setEntry (setEntry db t l) t l' = setEntry db t l' := by
  rw [setEntry, setEntry, List.map_map, setEntry]
  congr 1
  funext p
  simp only [Function.comp]
  by_cases h : (p.1 == t) = true
  · simp [h]
  · rw [Bool.not_eq_true] at h
    simp [h]

theorem Reaches.trans {db : DepDB} {a b c : Nat}
    (h1 : Reaches db a b) (h2 : Reaches db b c) : Reaches db a c := by
  induction h1 with
  | refl _ => exact h2
  | step hb _ ih => exact Reaches.step hb (ih h2)

/-- In the post-edit graph everything except the edited node's out-edges is
unchanged, so any path either already existed, or first passes through the
edited node. -/
theorem reaches_new_split {db db' : DepDB} {t : Nat} {nd : List Nat}
    (hdeps : ∀ x, depsOf db' x = if x = t then nd else depsOf db x) :
    ∀ {x y : Nat}, Reaches db' x y →
      Reaches db x y ∨ (Reaches db x t ∧ Reaches db' t y) := by
  intro x y hr
  induction hr with
  | refl a => exact Or.inl (Reaches.refl a)
  | step hb hr2 ih =>
    next a b c =>
    by_cases hat : a = t
    · subst hat
      exact Or.inr ⟨Reaches.refl a, Reaches.step hb hr2⟩
    · have hb' : b ∈ depsOf db a := by
        have := hdeps a
        rw [if_neg hat] at this
        exact this ▸ hb
      rcases ih with h | ⟨h1, h2⟩
      · exact Or.inl (Reaches.step hb' h)
      · exact Or.inr ⟨Reaches.step hb' h1, h2⟩

/-- If no accepted candidate can reach the edited node in the old graph, then
no node can newly reach the edited node: paths to `t` in the new graph already
exist in the old graph. -/
theorem reaches_target_old {db db' : DepDB} {t : Nat} {nd : List Nat}
    (hdeps : ∀ x, depsOf db' x = if x = t then nd else depsOf db x)
    (hchk : ∀ d ∈ nd, ¬ Reaches db d t) :
    ∀ {x : Nat}, Reaches db' x t → Reaches db x t := by
  intro x hr
  generalize hy : t = y at hr
  induction hr with
  | refl a => exact Reaches.refl a
  | step hb hr2 ih =>
    next a b c =>
    subst hy
    by_cases hat : a = t
    · subst hat
      have hbnd : b ∈ nd := by
        have := hdeps a
        rw [if_pos rfl] at this
        exact this ▸ hb
      exact absurd (ih rfl) (hchk b hbnd)
    · have hb' : b ∈ depsOf db a := by
        have := hdeps a
        rw [if_neg hat] at this
        exact this ▸ hb
      exact Reaches.step hb' (ih rfl)

/-- Core safety of the Dependency Editor: replacing `t`'s dependency list with
candidates none of which reaches `t` in the old graph keeps an acyclic scope
acyclic. -/
theorem setDeps_preserves_acyclic {db db' : DepDB} {t : Nat} {nd : List Nat}
    (hdeps : ∀ x, depsOf db' x = if x = t then nd else depsOf db x)
    (hchk : ∀ d ∈ nd, ¬ Reaches db d t)
    (hA : Acyclic db) : Acyclic db' := by
  rintro ⟨a, b, hb, hr⟩
  by_cases hat : a = t
  · subst hat
    have hbnd : b ∈ nd := by
      have := hdeps a
      rw [if_pos rfl] at this
      exact this ▸ hb
    exact hchk b hbnd (reaches_target_old hdeps hchk hr)
  · have hb' : b ∈ depsOf db a := by
      have := hdeps a
      rw [if_neg hat] at this
      exact this ▸ hb
    rcases reaches_new_split hdeps hr with h | ⟨h1, h2⟩
    · exact hA ⟨a, b, hb', h⟩
    · -- the path from `b` to `a` passes through `t`; from `t` it proceeds by a
      -- new edge `d ∈ nd`, and `d` reaches `t` in the old graph either way
      have hbt : Reaches db b t := h1
      have hart : Reaches db a t := Reaches.step hb' hbt
      cases h2 with
      | refl _ => exact hat rfl
      | @step _ d _ hd hr2 =>
        have hdnd : d ∈ nd := by
          have := hdeps t
          rw [if_pos rfl] at this
          exact this ▸ hd
        rcases reaches_new_split hdeps hr2 with h3 | ⟨h3, _⟩
        · exact hchk d hdnd (Reaches.trans h3 hart)
        · exact hchk d hdnd h3

/-- Inversion of a successful `update_task_dependencies` call: the task
exists, every candidate passed the cycle check against the pre-edit graph, and
the result's fields are as constructed. -/
theorem update_ok_inv {db : DepDB} {task_id : Nat} {ids : List Nat} {r : UpdResult}
    (h : update_task_dependencies db task_id ids = .ok r) :
    nodeExists db task_id = true ∧
    (∀ d ∈ ids, has_circular_dependency db d task_id = false) ∧
    r.db = setEntry db task_id (ids.filter (fun d => nodeExists db d)) ∧
    r.audit = decide (sortIds (depsOf db task_id) ≠ sortIds ids) ∧
    r.resp = ids := by
  rw [update_task_dependencies] at h
  split at h
  · next hex =>
      split at h
      · exact absurd h (by simp)
      · next hfind =>
          rw [List.find?_eq_none] at hfind
          refine ⟨hex, ?_, ?_, ?_, ?_⟩
          · intro d hd
            have := hfind d hd
            exact Bool.not_eq_true _ ▸ this
          · cases h; rfl
          · cases h; rfl
          · cases h; rfl
  · exact absurd h (by simp)

/-- Single-call safety: a successful SetDependencies call on an acyclic scope
leaves it acyclic. -/
theorem update_task_dependencies_acyclic {db : DepDB} {t : Nat} {ids : List Nat}
    {r : UpdResult} (hA : Acyclic db) (h : update_task_dependencies db t ids = .ok r) :
    Acyclic r.db := by
  obtain ⟨hex, hchk, hdb, -, -⟩ := update_ok_inv h
  rw [hdb]
  refine @setDeps_preserves_acyclic db _ t (ids.filter (fun d => nodeExists db d)) ?_ ?_ hA
  · intro x
    by_cases hx : x = t
    · subst hx; rw [if_pos rfl]; exact depsOf_setEntry_self _ hex
    · rw [if_neg hx]; exact depsOf_setEntry_ne _ hx
  · intro d hd
    have hdi : d ∈ ids := List.mem_of_mem_filter hd
    intro hr
    rw [← hcd_true_iff_reaches db d t, hchk d hdi] at hr
    exact Bool.false_ne_true hr

/-- Fold a list of SetDependencies calls `(task_id, dependency_ids)` over the
scope; a failed call leaves the scope unchanged. -/
def applyTaskCalls (db : DepDB) (calls : List (Nat × List Nat)) : DepDB :=
  calls.foldl (fun cur c => applyTaskDeps cur c.1 c.2) db

/-- Every call in the sequence succeeds (each against the state produced by
the previous ones). -/
def callsSucceed : DepDB → List (Nat × List Nat) → Bool
  | _, [] => true
  | db, c :: cs =>
    match update_task_dependencies db c.1 c.2 with
    | .ok r => callsSucceed r.db cs
    | .error _ => false

theorem applyTaskDeps_acyclic {db : DepDB} (t : Nat) (ids : List Nat)
    (hA : Acyclic db) : Acyclic (applyTaskDeps db t ids) := by
  rw [applyTaskDeps]
  split
  · next r h => exact update_task_dependencies_acyclic hA h
  · exact hA

theorem depsOf_eq_nil_of_all_nil {db : DepDB} (h : ∀ p ∈ db, p.2 = []) (a : Nat) :
    depsOf db a = [] := by
  rw [depsOf, lookupDeps]
  cases hq : db.find? (fun p => p.1 == a) with
  | none => rfl
  | some q =>
    have := h q (List.mem_of_find?_eq_some hq)
    simp [this]

theorem acyclic_of_all_nil {db : DepDB} (h : ∀ p ∈ db, p.2 = []) : Acyclic db := by
  rintro ⟨a, b, hb, -⟩
  rw [depsOf_eq_nil_of_all_nil h a] at hb
  exact List.not_mem_nil b hb

/-- The two graph scopes of the system: the per-period task graph being edited
and the template pool. -/
structure Scopes where
  tasks : DepDB
  templates : DepDB

/-- The two dedicated dependency-editing endpoints. -/
inductive EditorOp where
  | taskDeps (id : Nat) (ids : List Nat) : EditorOp
  | templateDeps (id : Nat) (ids : List Nat) : EditorOp

/-- Apply one dependency-editing endpoint call; failures leave state as is. -/
def applyEditorOp (s : Scopes) : EditorOp → Scopes
  | .taskDeps i ids => { s with tasks := applyTaskDeps s.tasks i ids }
  | .templateDeps i ids =>
      { s with templates :=
          match update_template_dependencies s.templates i ids with
          | .ok db' => db'
          | .error _ => s.templates }

def applyEditorOps (s : Scopes) (ops : List EditorOp) : Scopes :=
  ops.foldl applyEditorOp s

theorem applyEditorOp_acyclic {s : Scopes} (op : EditorOp)
    (hT : Acyclic s.tasks) (hP : Acyclic s.templates) :
    Acyclic (applyEditorOp s op).tasks ∧ Acyclic (applyEditorOp s op).templates := by
  cases op with
  | taskDeps i ids => exact ⟨applyTaskDeps_acyclic i ids hT, hP⟩
  | templateDeps i ids =>
    refine ⟨hT, ?_⟩
    show Acyclic (match update_template_dependencies s.templates i ids with
      | .ok db' => db'
      | .error _ => s.templates)
    rw [update_template_dependencies]
    cases h : update_task_dependencies s.templates i ids with
    | ok r => exact update_task_dependencies_acyclic hP h
    | error e => exact hP

/-- C1, counterexample: the spec's invariant I1 does not survive the general
task-update endpoint.  Starting from the acyclic two-task scope
`[(1, []), (2, [])]`, the `dependency_ids` branch of `update_task` (which runs
no cycle check) first makes task 1 depend on task 2 and then task 2 depend on
task 1, producing a directed cycle. -/
theorem c1_update_task_breaks_acyclicity :
    Acyclic [(1, []), (2, [])] ∧
    HasCycle (update_task_dep_branch (update_task_dep_branch [(1, []), (2, [])] 1 [2]) 2 [1]) := by
  constructor
  · exact acyclic_of_all_nil (by decide)
  · exact ⟨1, 2, by decide, Reaches.step (by decide) (Reaches.refl 1)⟩

/-- C1, amended: acyclicity is an invariant of the dedicated dependency
endpoints only.  Any sequence of task-SetDependencies and
template-SetDependencies calls (failed calls leaving state unchanged), started
from acyclic task and template scopes, keeps both scopes acyclic; the
task-update and template-update endpoints are excluded because they replace
edges without a cycle check. -/
theorem c1_amended_editor_ops_preserve_acyclicity (s : Scopes) (ops : List EditorOp)
    (hT : Acyclic s.tasks) (hP : Acyclic s.templates) :
    Acyclic (applyEditorOps s ops).tasks ∧ Acyclic (applyEditorOps s ops).templates := by
  induction ops generalizing s with
  | nil => exact ⟨hT, hP⟩
  | cons op rest ih =>
    have h := applyEditorOp_acyclic op hT hP
    exact ih (applyEditorOp s op) h.1 h.2

theorem c1_amended_witness :
    Acyclic (Scopes.mk [(1, []), (2, [])] [(5, []), (6, [])]).tasks ∧
    Acyclic (Scopes.mk [(1, []), (2, [])] [(5, []), (6, [])]).templates ∧
    (Acyclic (applyEditorOps (Scopes.mk [(1, []), (2, [])] [(5, []), (6, [])])
        [EditorOp.taskDeps 1 [2], EditorOp.templateDeps 5 [6]]).tasks ∧
     Acyclic (applyEditorOps (Scopes.mk [(1, []), (2, [])] [(5, []), (6, [])])
        [EditorOp.taskDeps 1 [2], EditorOp.templateDeps 5 [6]]).templates) :=
  ⟨acyclic_of_all_nil (by decide), acyclic_of_all_nil (by decide),
   c1_amended_editor_ops_preserve_acyclicity _ _
     (acyclic_of_all_nil (by decide)) (acyclic_of_all_nil (by decide))⟩

/-- C2: for any sequence of SetDependencies calls that each individually
succeed, starting from an acyclic task graph, the resulting scope contains no
directed cycle of any length (each candidate is validated with
`has_circular_dependency` against the pre-edit graph before the whole-set
replacement is applied). -/
theorem c2_setDependencies_sequence_acyclic (db : DepDB) (calls : List (Nat × List Nat))
    (hA : Acyclic db) (hs : callsSucceed db calls = true) :
    Acyclic (applyTaskCalls db calls) := by
  induction calls generalizing db with
  | nil => exact hA
  | cons c cs ih =>
    rw [callsSucceed] at hs
    split at hs
    · next r h =>
        have hstep : applyTaskDeps db c.1 c.2 = r.db := by
          rw [applyTaskDeps, h]
        show Acyclic (applyTaskCalls (applyTaskDeps db c.1 c.2) cs)
        rw [hstep]
        exact ih r.db (update_task_dependencies_acyclic hA h) hs
    · exact absurd hs (by simp)

theorem c2_witness :
    Acyclic [(1, []), (2, [])] ∧
    callsSucceed [(1, []), (2, [])] [(1, [2])] = true ∧
    Acyclic (applyTaskCalls [(1, []), (2, [])] [(1, [2])]) :=
  ⟨acyclic_of_all_nil (by decide), by decide,
   c2_setDependencies_sequence_acyclic [(1, []), (2, [])] [(1, [2])]
     (acyclic_of_all_nil (by decide)) (by decide)⟩

/-- C9: the cycle-check traversal is total and correct on every finite scope,
including scopes that already contain directed cycles (corrupt data): at the
fuel bound the visited set guarantees the fuel is never exhausted, and the
returned boolean is `true` exactly when the target is reachable from the
start node — `true` the moment the target is encountered, `false` once all
reachable unvisited nodes are exhausted. -/
theorem c9_cycle_check_total_correct (db : DepDB) (t target : Nat) :
    has_circular_dependency db t target = true ↔ Reaches db t target :=
  hcd_true_iff_reaches db t target

/-- A direct edge makes the cycle check fire: if `target` is among `t`'s
dependencies then `has_circular_dependency t target` is true. -/
theorem hcd_of_edge {db : DepDB} {t target : Nat} (h : target ∈ depsOf db t) :
    has_circular_dependency db t target = true :=
  (hcd_true_iff_reaches db t target).mpr (Reaches.step h (Reaches.refl target))

/-- C3, counterexample: with edges `1 → 2` and `3 → 2`, setting task 2's
dependencies to `[3, 1]` — a list that includes `A = 1`, while the graph
contains the edge `A dependsOn B` for `A = 1`, `B = 2` — fails naming the
offending id 3 (the first offender in candidate order), not `A = 1` as the
claim requires. -/
theorem c3_counterexample_first_offender_named :
    (2 : Nat) ∈ depsOf [(1, [2]), (2, []), (3, [2])] 1 ∧
    update_task_dependencies [(1, [2]), (2, []), (3, [2])] 2 [3, 1] =
      .error (.circular 3) ∧
    DepErr.circular 3 ≠ DepErr.circular 1 :=
  ⟨by decide, rfl, by decide⟩

/-- C3, amended: if the graph contains edge `A dependsOn B` (and `B` exists),
a SetDependencies call setting `B`'s dependencies to a list containing `A`
fails with `CycleDetected` naming the first candidate in list order that
closes a cycle — in particular it names `A` whenever no candidate before `A`
in the list closes a cycle — and the graph is unchanged after the failed call
(the endpoint raises before any mutation). -/
theorem c3_amended_cycle_rejection (db : DepDB) (A B : Nat) (l1 l2 : List Nat)
    (hedge : B ∈ depsOf db A)
    (hexist : nodeExists db B = true)
    (hpre : ∀ c ∈ l1, has_circular_dependency db c B = false) :
    update_task_dependencies db B (l1 ++ A :: l2) = .error (.circular A) ∧
    applyTaskDeps db B (l1 ++ A :: l2) = db := by
  have hA : has_circular_dependency db A B = true := hcd_of_edge hedge
  have hfind : (l1 ++ A :: l2).find? (fun d => has_circular_dependency db d B) = some A := by
    rw [List.find?_append]
    have h1 : l1.find? (fun d => has_circular_dependency db d B) = none := by
      rw [List.find?_eq_none]
      intro x hx h
      rw [hpre x hx] at h
      exact Bool.false_ne_true h
    rw [h1, Option.none_or]
    exact List.find?_cons_of_pos _ hA
  have hmain : update_task_dependencies db B (l1 ++ A :: l2) = .error (.circular A) := by
    rw [update_task_dependencies, if_pos hexist, hfind]
  exact ⟨hmain, by rw [applyTaskDeps, hmain]⟩

theorem c3_witness :
    (2 : Nat) ∈ depsOf [(1, [2]), (2, [])] 1 ∧
    nodeExists [(1, [2]), (2, [])] 2 = true ∧
    (∀ c ∈ ([] : List Nat), has_circular_dependency [(1, [2]), (2, [])] c 2 = false) ∧
    (update_task_dependencies [(1, [2]), (2, [])] 2 ([] ++ 1 :: []) =
       .error (.circular 1) ∧
     applyTaskDeps [(1, [2]), (2, [])] 2 ([] ++ 1 :: []) = [(1, [2]), (2, [])]) :=
  ⟨by decide, by decide, by decide,
   c3_amended_cycle_rejection [(1, [2]), (2, [])] 1 2 [] []
     (by decide) (by decide) (by decide)⟩

/-- C8, counterexample: with scope `[(1, []), (2, [])]` and candidate list
`X = [2, 99]` (99 does not exist), both calls succeed and produce the same
graph, but the second call still emits a `dependencies_updated` audit record
(`audit = true`), because the comparison uses the raw input list `[2, 99]`
against the persisted ids `[2]`. -/
theorem c8_counterexample_second_call_audits :
    update_task_dependencies [(1, []), (2, [])] 1 [2, 99] =
      .ok ⟨[(1, [2]), (2, [])], true, [2, 99]⟩ ∧
    update_task_dependencies [(1, [2]), (2, [])] 1 [2, 99] =
      .ok ⟨[(1, [2]), (2, [])], true, [2, 99]⟩ :=
  ⟨rfl, rfl⟩

/-- C8, amended: calling SetDependencies twice in a row with the same list `X`
(both calls succeeding) produces identical graph state, and the second call
emits no audit record if and only if `sorted(X)` equals the sorted persisted
subset — i.e. exactly when the existence filter kept `X` intact; with
non-existent candidate ids in `X` the second call still emits an audit record
since the comparison uses the raw input list. -/
theorem c8_amended_idempotent_state {db : DepDB} {t : Nat} {X : List Nat}
    {r1 r2 : UpdResult}
    (h1 : update_task_dependencies db t X = .ok r1)
    (h2 : update_task_dependencies r1.db t X = .ok r2) :
    r2.db = r1.db ∧
    (r2.audit = false ↔
      sortIds (X.filter (fun d => nodeExists db d)) = sortIds X) := by
  obtain ⟨hex1, -, hdb1, -, -⟩ := update_ok_inv h1
  obtain ⟨hex2, -, hdb2, haud2, -⟩ := update_ok_inv h2
  have hfilter : X.filter (fun d => nodeExists r1.db d) =
      X.filter (fun d => nodeExists db d) := by
    congr 1
    funext d
    rw [hdb1, nodeExists_setEntry]
  constructor
  · rw [hdb2, hfilter, hdb1, setEntry_setEntry]
  · have hdeps : depsOf r1.db t = X.filter (fun d => nodeExists db d) := by
      rw [hdb1]
      exact depsOf_setEntry_self _ hex1
    rw [haud2, hdeps, decide_eq_false_iff_not, not_not]

theorem c8_witness :
    update_task_dependencies [(1, []), (2, [])] 1 [2] =
      .ok ⟨[(1, [2]), (2, [])], true, [2]⟩ ∧
    update_task_dependencies
        (UpdResult.mk [(1, [2]), (2, [])] true [2]).db 1 [2] =
      .ok ⟨[(1, [2]), (2, [])], false, [2]⟩ ∧
    ((UpdResult.mk [(1, [2]), (2, [])] false [2]).db =
       (UpdResult.mk [(1, [2]), (2, [])] true [2]).db ∧
     ((UpdResult.mk [(1, [2]), (2, [])] false [2]).audit = false ↔
       sortIds ([2].filter (fun d => nodeExists [(1, []), (2, [])] d)) =
         sortIds [2])) :=
  ⟨rfl, rfl,
   @c8_amended_idempotent_state [(1, []), (2, [])] 1 [2]
     ⟨[(1, [2]), (2, [])], true, [2]⟩ ⟨[(1, [2]), (2, [])], false, [2]⟩ rfl rfl⟩

/-- C10: on success, the persisted dependency list of the task is exactly the
existing subset of the candidates (non-existent ids silently dropped), while
the response's `dependency_ids` field echoes the raw input list — it does not
reflect the validated subset. -/
theorem c10_response_echoes_raw_ids {db : DepDB} {t : Nat} {ids : List Nat}
    {r : UpdResult} (h : update_task_dependencies db t ids = .ok r) :
    r.resp = ids ∧ depsOf r.db t = ids.filter (fun d => nodeExists db d) := by
  obtain ⟨hex, -, hdb, -, hresp⟩ := update_ok_inv h
  refine ⟨hresp, ?_⟩
  rw [hdb]
  exact depsOf_setEntry_self _ hex

theorem c10_witness :
    update_task_dependencies [(1, []), (2, [])] 1 [2, 99] =
      .ok ⟨[(1, [2]), (2, [])], true, [2, 99]⟩ ∧
    ((UpdResult.mk [(1, [2]), (2, [])] true [2, 99]).resp = [2, 99] ∧
     depsOf (UpdResult.mk [(1, [2]), (2, [])] true [2, 99]).db 1 =
       [2, 99].filter (fun d => nodeExists [(1, []), (2, [])] d)) :=
  ⟨rfl, c10_response_echoes_raw_ids rfl⟩

/-- A task row as the dependency endpoint sees it: id, owning period
(`period_id`), and dependency ids. -/
structure PTask where
  id : Nat
  period_id : Nat
  deps : List Nat
deriving DecidableEq, Repr

abbrev PTaskDB := List PTask

/-- The dependency graph over the whole task table (the cycle check in
`update_task_dependencies` queries tasks by id with no period filter). -/
def pGraph (db : PTaskDB) : DepDB := db.map (fun t => (t.id, t.deps))

/-- `db.query(Task).filter(Task.id == i).first() is not None` — existence is
checked globally, not within the edited task's period. -/
def ptaskExists (db : PTaskDB) (i : Nat) : Bool :=
  (db.find? (fun t => t.id == i)).isSome

def pdepsOf (db : PTaskDB) (i : Nat) : List Nat :=
  ((db.find? (fun t => t.id == i)).map (fun t => t.deps)).getD []

def periodOf (db : PTaskDB) (i : Nat) : Option Nat :=
  (db.find? (fun t => t.id == i)).map (fun t => t.period_id)

/-- `update_task_dependencies` over the full task table: identical to the
scope-level model, but making the period of each task explicit.  Note that
both the cycle check and the dependency-existence lookup run over the whole
table: a candidate id is accepted whenever a task with that id exists in ANY
period. -/
def update_task_dependencies_p (db : PTaskDB) (task_id : Nat)
    (dependency_ids : List Nat) : Except DepErr PTaskDB :=
  if ptaskExists db task_id then
    match dependency_ids.find? (fun d => has_circular_dependency (pGraph db) d task_id) with
    | some d => .error (.circular d)
    | none =>
      .ok (db.map (fun t =>
        if t.id == task_id then
          { t with deps := dependency_ids.filter (fun d => ptaskExists db d) }
        else t))
  else .error .notFound

/-- C4, counterexample: tasks 1 (period 10) and 2 (period 20) live in
different scopes, yet `SetDependencies(1, [2])` succeeds and persists the
cross-period edge `1 dependsOn 2` — the operation never compares periods, so
invariant I2 is not enforced. -/
theorem c4_counterexample_cross_period_edge :
    update_task_dependencies_p [⟨1, 10, []⟩, ⟨2, 20, []⟩] 1 [2] =
      .ok [⟨1, 10, [2]⟩, ⟨2, 20, []⟩] ∧
    pdepsOf [⟨1, 10, [2]⟩, ⟨2, 20, []⟩] 1 = [2] ∧
    periodOf [⟨1, 10, [2]⟩, ⟨2, 20, []⟩] 1 = some 10 ∧
    periodOf [⟨1, 10, [2]⟩, ⟨2, 20, []⟩] 2 = some 20 ∧
    (10 : Nat) ≠ 20 :=
  ⟨rfl, rfl, rfl, rfl, by decide⟩

theorem update_p_ok_inv {db : PTaskDB} {t : Nat} {ids : List Nat} {db' : PTaskDB}
    (h : update_task_dependencies_p db t ids = .ok db') :
    ptaskExists db t = true ∧
    db' = db.map (fun tk =>
      if tk.id == t then { tk with deps := ids.filter (fun d => ptaskExists db d) }
      else tk) := by
  rw [update_task_dependencies_p] at h
  split at h
  · next hex =>
      split at h
      · exact absurd h (by simp)
      · cases h
        exact ⟨hex, rfl⟩
  · exact absurd h (by simp)

theorem pfind_update (db : PTaskDB) (t : Nat) (F : List Nat) (x : Nat) :
    (db.map (fun tk => if tk.id == t then { tk with deps := F } else tk)).find?
        (fun tk => tk.id == x) =
      (db.find? (fun tk => tk.id == x)).map
        (fun tk => if tk.id == t then { tk with deps := F } else tk) := by
  rw [List.find?_map]
  have hpred : ((fun tk : PTask => tk.id == x) ∘
      (fun tk => if tk.id == t then { tk with deps := F } else tk)) =
      (fun tk : PTask => tk.id == x) := by
    funext tk
    simp only [Function.comp]
    split <;> rfl
  rw [hpred]

/-- C4, amended: SetDependencies filters candidates only by global existence:
on success, the persisted dependency list of the edited task is exactly the
candidates for which a task with that id exists anywhere in the table
(non-existent ids silently skipped, periods never compared), and no task's
period changes.  Cross-period edges can therefore be created; I2 is not
enforced by this operation. -/
theorem c4_amended_existence_filter {db : PTaskDB} {t : Nat} {ids : List Nat}
    {db' : PTaskDB} (h : update_task_dependencies_p db t ids = .ok db') :
    pdepsOf db' t = ids.filter (fun d => ptaskExists db d) ∧
    ∀ x, periodOf db' x = periodOf db x := by
  obtain ⟨hex, hdb⟩ := update_p_ok_inv h
  constructor
  · rw [hdb, pdepsOf, pfind_update]
    rw [ptaskExists, Option.isSome_iff_exists] at hex
    obtain ⟨q, hq⟩ := hex
    have hqt := List.find?_some hq
    rw [hq]
    simp only [Option.map_some']
    rw [if_pos hqt]
    rfl
  · intro x
    rw [hdb, periodOf, periodOf, pfind_update]
    cases db.find? (fun tk => tk.id == x) with
    | none => rfl
    | some q =>
      simp only [Option.map_some']
      split <;> rfl

theorem c4_witness :
    update_task_dependencies_p [⟨1, 10, []⟩, ⟨2, 20, []⟩] 1 [2, 99] =
      .ok [⟨1, 10, [2]⟩, ⟨2, 20, []⟩] ∧
    (pdepsOf [⟨1, 10, [2]⟩, ⟨2, 20, []⟩] 1 =
       [2, 99].filter (fun d => ptaskExists [⟨1, 10, []⟩, ⟨2, 20, []⟩] d) ∧
     ∀ x, periodOf [⟨1, 10, [2]⟩, ⟨2, 20, []⟩] x =
       periodOf [⟨1, 10, []⟩, ⟨2, 20, []⟩] x) :=
  ⟨rfl, c4_amended_existence_filter rfl⟩

/-- Gregorian leap year, as in Python's `calendar.isleap`. -/
def isleap (y : Nat) : Bool := y % 4 == 0 && (y % 100 != 0 || y % 400 == 0)

/-- `calendar.monthrange(year, month)[1]`: number of days in the month. -/
def monthLen (y m : Nat) : Nat :=
  if m == 2 then (if isleap y then 29 else 28)
  else if m == 4 || m == 6 || m == 9 || m == 11 then 30 else 31

/-- Days in years `1 .. y-1`, as in CPython's `datetime._days_before_year`. -/
def daysBeforeYear (y : Nat) : Nat :=
  let py := y - 1
  py * 365 + py / 4 - py / 100 + py / 400

/-- Days in the months of year `y` strictly before month `m`
(`datetime._days_before_month`). -/
def daysBeforeMonth (y m : Nat) : Nat :=
  ((List.range (m - 1)).map (fun i => monthLen y (i + 1))).sum

/-- `date(y, m, d).toordinal()`: proleptic-Gregorian ordinal day number.
Python's `date + timedelta(days = k)` is exactly ordinal arithmetic, so a UTC
midnight timestamp is represented by its ordinal. -/
def toordinal (y m d : Nat) : Nat :=
  daysBeforeYear y + daysBeforeMonth y m + d

/-- A period as read by `_compute_due_datetime`: `month`, `year` and the
optional `target_close_date` (as a `(year, month, day)` date). -/
structure PeriodRec where
  month : Nat
  year : Nat
  target_close_date : Option (Nat × Nat × Nat)
deriving DecidableEq, Repr

/-- `_compute_due_datetime(period, offset_days)` (backend/routers/periods.py):
anchor at `period.target_close_date` if set, else the last calendar day of
`(period.year, period.month)`; take UTC midnight of the anchor and add
`offset_days` days.  Timestamps are represented by ordinal day numbers. -/
def compute_due_datetime (p : PeriodRec) (offset_days : Int) : Int :=
  (match p.target_close_date with
   | some (y, m, d) => (toordinal y m d : Int)
   | none => (toordinal p.year p.month (monthLen p.year p.month) : Int)) + offset_days

/-- A task template as read by the roll-forward: id, close type, active flag,
`days_offset` (nullable) and template dependency ids. -/
structure Tmpl where
  id : Nat
  close_type : Nat
  is_active : Bool
  days_offset : Option Int
  deps : List Nat
deriving DecidableEq, Repr

/-- A task created by the roll-forward: fresh id, source template id, due
timestamp and dependency ids (pointing at other freshly created tasks). -/
structure RTask where
  id : Nat
  template_id : Nat
  due : Int
  deps : List Nat
deriving DecidableEq, Repr

/-- The template query of `create_period`:
`close_type == period.close_type` and `is_active`. -/
def activeTemplates (templates : List Tmpl) (ct : Nat) : List Tmpl :=
  templates.filter (fun t => t.close_type == ct && t.is_active)

/-- First pass of the roll-forward: `template_to_task_map`, mapping each
template id to the (sequentially flushed) id of its new task. -/
def buildTaskMap : List Tmpl → Nat → List (Nat × Nat)
  | [], _ => []
  | t :: ts, nid => (t.id, nid) :: buildTaskMap ts (nid + 1)

/-- `template_to_task_map.get(k)` (template ids are primary keys, hence
unique, so first match suffices). -/
def dictGet (m : List (Nat × Nat)) (k : Nat) : Option Nat :=
  (m.find? (fun p => p.1 == k)).map (fun p => p.2)

/-- Creation of the tasks, with the second pass merged in: the task created
for template `t` receives one dependency `task(T_b)` for each
`T_b ∈ t.dependencies` that was instantiated in this batch
(`template_to_task_map.get` misses are skipped).  Merging the two passes is
faithful because template ids are unique, so `map.get(template.id)` in the
second pass returns exactly the task created for `template` in the first. -/
def rollForwardGo (p : PeriodRec) (tmap : List (Nat × Nat)) :
    List Tmpl → Nat → List RTask
  | [], _ => []
  | t :: ts, nid =>
    { id := nid, template_id := t.id,
      due := compute_due_datetime p (t.days_offset.getD 0),
      deps := t.deps.filterMap (fun d => dictGet tmap d) } ::
    rollForwardGo p tmap ts (nid + 1)

/-- The roll-forward section of `create_period` (`roll_forward_tasks=True`,
backend/routers/periods.py lines 307-345): filter the active templates of the
period's close type, create one task per template with
`due_date = _compute_due_datetime(period, template.days_offset or 0)`, then
reproduce the template dependency edges through `template_to_task_map`. -/
def create_period_roll_forward (templates : List Tmpl) (p : PeriodRec)
    (ct : Nat) (startId : Nat) : List RTask :=
  rollForwardGo p (buildTaskMap (activeTemplates templates ct) startId)
    (activeTemplates templates ct) startId

/-- The instance edge list `(dependent task id, dependency task id)` of a
rolled-forward task set. -/
def instEdges (res : List RTask) : List (Nat × Nat) :=
  (res.map (fun r => r.deps.map (fun d => (r.id, d)))).flatten

theorem rollForwardGo_getElem (p : PeriodRec) (tmap : List (Nat × Nat)) :
    ∀ (ft : List Tmpl) (nid i : Nat),
      (rollForwardGo p tmap ft nid)[i]? =
        ft[i]?.map (fun t => RTask.mk (nid + i) t.id
          (compute_due_datetime p (t.days_offset.getD 0))
          (t.deps.filterMap (fun d => dictGet tmap d))) := by
  intro ft
  induction ft with
  | nil => intro nid i; simp [rollForwardGo]
  | cons t ts ih =>
    intro nid i
    cases i with
    | zero => simp [rollForwardGo]
    | succ i =>
      rw [rollForwardGo]
      rw [List.getElem?_cons_succ, List.getElem?_cons_succ, ih (nid + 1) i]
      have h : nid + 1 + i = nid + (i + 1) := by omega
      rw [h]

theorem dictGet_isSome (d : Nat) :
    ∀ (ft : List Tmpl) (s : Nat),
      (dictGet (buildTaskMap ft s) d).isSome =
        decide (d ∈ ft.map (fun t => t.id)) := by
  intro ft
  induction ft with
  | nil => intro s; simp [buildTaskMap, dictGet]
  | cons t ts ih =>
    intro s
    by_cases h : t.id = d
    · subst h
      rw [buildTaskMap, dictGet, List.find?_cons_of_pos _ (by simp)]
      simp
    · rw [buildTaskMap, dictGet, List.find?_cons_of_neg _ (by simp [h])]
      have hih := ih (s + 1)
      rw [dictGet] at hih
      rw [hih]
      refine (decide_eq_decide.mpr ?_).symm
      rw [List.map_cons, List.mem_cons]
      constructor
      · rintro (hcontra | hok)
        · exact absurd hcontra.symm h
        · exact hok
      · exact Or.inr

theorem dictGet_get_pos :
    ∀ (ft : List Tmpl) (s : Nat), (ft.map (fun t => t.id)).Nodup →
      ∀ (i : Nat) (hi : i < ft.length),
        dictGet (buildTaskMap ft s) ((ft.get ⟨i, hi⟩).id) = some (s + i) := by
  intro ft
  induction ft with
  | nil => intro s _ i hi; exact absurd hi (by simp)
  | cons t ts ih =>
    intro s hnd i hi
    rw [List.map_cons, List.nodup_cons] at hnd
    cases i with
    | zero =>
      rw [buildTaskMap, dictGet, List.find?_cons_of_pos _ (by simp)]
      rfl
    | succ i =>
      have hi' : i < ts.length := by
        rw [List.length_cons] at hi
        omega
      have hmem : (ts.get ⟨i, hi'⟩).id ∈ ts.map (fun t => t.id) :=
        List.mem_map_of_mem _ (ts.get_mem i hi')
      have hne : ¬ (t.id == (ts.get ⟨i, hi'⟩).id) = true := by
        simp only [beq_iff_eq]
        intro hcontra
        exact hnd.1 (hcontra ▸ hmem)
      have hget : ((t :: ts).get ⟨i + 1, hi⟩) = ts.get ⟨i, hi'⟩ := rfl
      rw [hget, buildTaskMap, dictGet]
      have hskip : List.find? (fun q => q.1 == (ts.get ⟨i, hi'⟩).id)
          ((t.id, s) :: buildTaskMap ts (s + 1)) =
          List.find? (fun q => q.1 == (ts.get ⟨i, hi'⟩).id) (buildTaskMap ts (s + 1)) :=
        List.find?_cons_of_neg _ hne
      rw [hskip]
      have hih := ih (s + 1) hnd.2 i hi'
      rw [dictGet] at hih
      rw [hih]
      have : s + 1 + i = s + (i + 1) := by omega
      rw [this]

/-- C5: roll-forward creates exactly one task per active template of the
period's close type (in template order, with sequential ids), each new task's
dependency list is its template's dependency list mapped through
`template_to_task_map` with uninstantiated endpoints skipped, the map is
defined exactly on the instantiated template ids, and it sends the `i`-th
instantiated template to the `i`-th created task — so for every template edge
`(T_a dependsOn T_b)` with both endpoints instantiated there is exactly one
corresponding instance edge `(task(T_a) dependsOn task(T_b))`, and no other
instance edges exist. -/
theorem c5_roll_forward_edge_fidelity (templates : List Tmpl) (p : PeriodRec)
    (ct startId : Nat)
    (hnd : ((activeTemplates templates ct).map (fun t => t.id)).Nodup) :
    (create_period_roll_forward templates p ct startId).map (fun r => r.template_id) =
      (activeTemplates templates ct).map (fun t => t.id) ∧
    (∀ i : Nat, (create_period_roll_forward templates p ct startId)[i]? =
      ((activeTemplates templates ct)[i]?).map (fun t =>
        RTask.mk (startId + i) t.id (compute_due_datetime p (t.days_offset.getD 0))
          (t.deps.filterMap (fun d =>
            dictGet (buildTaskMap (activeTemplates templates ct) startId) d)))) ∧
    (∀ d : Nat, (dictGet (buildTaskMap (activeTemplates templates ct) startId) d).isSome =
      decide (d ∈ (activeTemplates templates ct).map (fun t => t.id))) ∧
    (∀ (i : Nat) (hi : i < (activeTemplates templates ct).length),
      dictGet (buildTaskMap (activeTemplates templates ct) startId)
        (((activeTemplates templates ct).get ⟨i, hi⟩).id) = some (startId + i)) := by
  refine ⟨?_, ?_, ?_, ?_⟩
  · apply List.ext_getElem?
    intro i
    rw [List.getElem?_map, List.getElem?_map, create_period_roll_forward,
      rollForwardGo_getElem]
    cases (activeTemplates templates ct)[i]? <;> rfl
  · intro i
    rw [create_period_roll_forward, rollForwardGo_getElem]
  · intro d
    exact dictGet_isSome d _ startId
  · exact dictGet_get_pos _ startId hnd

theorem c5_witness :
    ((activeTemplates [⟨1, 0, true, none, []⟩, ⟨2, 0, true, none, [1]⟩,
        ⟨3, 0, true, none, [1]⟩] 0).map (fun t => t.id)).Nodup ∧
    ((create_period_roll_forward [⟨1, 0, true, none, []⟩, ⟨2, 0, true, none, [1]⟩,
        ⟨3, 0, true, none, [1]⟩] ⟨2, 2024, none⟩ 0 101).length = 3 ∧
     instEdges (create_period_roll_forward [⟨1, 0, true, none, []⟩,
        ⟨2, 0, true, none, [1]⟩, ⟨3, 0, true, none, [1]⟩] ⟨2, 2024, none⟩ 0 101) =
       [(102, 101), (103, 101)]) ∧
    ((create_period_roll_forward [⟨1, 0, true, none, []⟩, ⟨2, 0, true, none, [1]⟩,
        ⟨3, 0, true, none, [1]⟩] ⟨2, 2024, none⟩ 0 101).map (fun r => r.template_id) =
      (activeTemplates [⟨1, 0, true, none, []⟩, ⟨2, 0, true, none, [1]⟩,
        ⟨3, 0, true, none, [1]⟩] 0).map (fun t => t.id) ∧
     (∀ i : Nat, (create_period_roll_forward [⟨1, 0, true, none, []⟩,
        ⟨2, 0, true, none, [1]⟩, ⟨3, 0, true, none, [1]⟩] ⟨2, 2024, none⟩ 0 101)[i]? =
      ((activeTemplates [⟨1, 0, true, none, []⟩, ⟨2, 0, true, none, [1]⟩,
        ⟨3, 0, true, none, [1]⟩] 0)[i]?).map (fun t =>
        RTask.mk (101 + i) t.id (compute_due_datetime ⟨2, 2024, none⟩ (t.days_offset.getD 0))
          (t.deps.filterMap (fun d =>
            dictGet (buildTaskMap (activeTemplates [⟨1, 0, true, none, []⟩,
              ⟨2, 0, true, none, [1]⟩, ⟨3, 0, true, none, [1]⟩] 0) 101) d)))) ∧
     (∀ d : Nat, (dictGet (buildTaskMap (activeTemplates [⟨1, 0, true, none, []⟩,
        ⟨2, 0, true, none, [1]⟩, ⟨3, 0, true, none, [1]⟩] 0) 101) d).isSome =
      decide (d ∈ (activeTemplates [⟨1, 0, true, none, []⟩, ⟨2, 0, true, none, [1]⟩,
        ⟨3, 0, true, none, [1]⟩] 0).map (fun t => t.id))) ∧
     (∀ (i : Nat) (hi : i < (activeTemplates [⟨1, 0, true, none, []⟩,
        ⟨2, 0, true, none, [1]⟩, ⟨3, 0, true, none, [1]⟩] 0).length),
      dictGet (buildTaskMap (activeTemplates [⟨1, 0, true, none, []⟩,
        ⟨2, 0, true, none, [1]⟩, ⟨3, 0, true, none, [1]⟩] 0) 101)
        (((activeTemplates [⟨1, 0, true, none, []⟩, ⟨2, 0, true, none, [1]⟩,
          ⟨3, 0, true, none, [1]⟩] 0).get ⟨i, hi⟩).id) = some (101 + i))) :=
  ⟨by decide, ⟨by decide, by decide⟩,
   c5_roll_forward_edge_fidelity [⟨1, 0, true, none, []⟩, ⟨2, 0, true, none, [1]⟩,
     ⟨3, 0, true, none, [1]⟩] ⟨2, 2024, none⟩ 0 101 (by decide)⟩

/-- C6: every rolled-forward task's due date equals
`_compute_due_datetime(period, template.days_offset or 0)`; the anchor is the
`target_close_date` when set, else the last calendar day of the period's
month at UTC midnight, plus the offset in days; in particular for
month=2, year=2024 (a leap year) with no target date, `days_offset = 0`
yields 2024-02-29 (UTC midnight) and `days_offset = -3` yields 2024-02-26. -/
theorem c6_due_date_derivation :
    (∀ (templates : List Tmpl) (p : PeriodRec) (ct startId i : Nat),
      ((create_period_roll_forward templates p ct startId)[i]?).map (fun r => r.due) =
        ((activeTemplates templates ct)[i]?).map (fun t =>
          compute_due_datetime p (t.days_offset.getD 0))) ∧
    (∀ (m0 y0 y m d : Nat) (off : Int),
      compute_due_datetime ⟨m0, y0, some (y, m, d)⟩ off = (toordinal y m d : Int) + off) ∧
    monthLen 2024 2 = 29 ∧
    compute_due_datetime ⟨2, 2024, none⟩ 0 = (toordinal 2024 2 29 : Int) ∧
    compute_due_datetime ⟨2, 2024, none⟩ (-3) = (toordinal 2024 2 26 : Int) := by
  refine ⟨?_, ?_, by decide, by decide, by decide⟩
  · intro templates p ct startId i
    rw [create_period_roll_forward, rollForwardGo_getElem]
    cases (activeTemplates templates ct)[i]? <;> rfl
  · intro m0 y0 y m d off
    rfl

/-- Task status enum (backend/models.py `TaskStatus`). -/
inductive TStatus where
  | not_started
  | in_progress
  | review
  | complete
  | blocked
deriving DecidableEq, Repr

/-- A task as read by `get_dashboard_stats`: id, status, optional due
timestamp (seconds, UTC) and dependency ids. -/
structure DTask where
  id : Nat
  status : TStatus
  due : Option Int
  deps : List Nat
deriving DecidableEq, Repr

/-- `far_future = now_utc + timedelta(days=3650)`, in seconds. -/
def farFuture (now : Int) : Int := now + 3650 * 86400

/-- `summary_sort_key`: a task's due date, with `None` mapped to
`far_future`. -/
def summaryKey (now : Int) (t : DTask) : Int := t.due.getD (farFuture now)

/-- `dependents.sort(key=summary_sort_key)` — a stable ascending sort. -/
def sortByDue (now : Int) (l : List DTask) : List DTask :=
  l.insertionSort (fun a b => summaryKey now a ≤ summaryKey now b)

/-- `dependents_by_blocker[b]`: the tasks of the scope that directly depend
on `b` and are not complete (complete dependents are skipped when the rows
are bucketed). -/
def incompleteDependents (tasks : List DTask) (b : Nat) : List DTask :=
  tasks.filter (fun t => t.deps.contains b && !(t.status == TStatus.complete))

/-- `overdue_flag = 0 if task_due and task_due < reference_now else 1`. -/
def overdueFlag (now : Int) (t : DTask) : Nat :=
  match t.due with
  | some d => if d < now then 0 else 1
  | none => 1

/-- One entry of the dashboard's `candidates` list: the blocker task, its
sorted incomplete dependents, `blocked_count` and `overdue_flag`. -/
structure CPCand where
  task : DTask
  dependents : List DTask
  count : Nat
  flag : Nat
deriving DecidableEq, Repr

/-- The body of the candidate loop of `get_dashboard_stats`: skip blockers
with no (incomplete) dependents, skip complete blockers, otherwise build the
candidate tuple. -/
def cpCandidateOf (tasks : List DTask) (now : Int) (t : DTask) : Option CPCand :=
  if (incompleteDependents tasks t.id).isEmpty then none
  else if t.status == TStatus.complete then none
  else some { task := t, dependents := sortByDue now (incompleteDependents tasks t.id),
              count := (incompleteDependents tasks t.id).length,
              flag := overdueFlag now t }

/-- The `candidates` list, built in task order. -/
def cpCandidates (tasks : List DTask) (now : Int) : List CPCand :=
  tasks.filterMap (cpCandidateOf tasks now)

/-- The 3-key sort tuple
`(overdue_flag, due or far_future, -blocked_count)`. -/
def cpKey (now : Int) (c : CPCand) : Nat × Int × Int :=
  (c.flag, c.task.due.getD (farFuture now), -(c.count : Int))

/-- Lexicographic comparison of sort tuples (ascending). -/
def cpKeyLE (a b : Nat × Int × Int) : Prop :=
  a.1 < b.1 ∨ (a.1 = b.1 ∧ (a.2.1 < b.2.1 ∨ (a.2.1 = b.2.1 ∧ a.2.2 ≤ b.2.2)))

instance cpKeyLE_dec (a b : Nat × Int × Int) : Decidable (cpKeyLE a b) := by
  unfold cpKeyLE
  infer_instance

/-- The candidate ordering used by `candidates.sort(key=...)`. -/
def cpLE (now : Int) (a b : CPCand) : Prop := cpKeyLE (cpKey now a) (cpKey now b)

instance cpLE_dec (now : Int) : DecidableRel (cpLE now) := fun a b => by
  unfold cpLE
  infer_instance

instance cpLE_total (now : Int) : IsTotal CPCand (cpLE now) := by
  constructor
  intro a b
  unfold cpLE cpKeyLE
  omega

instance cpLE_trans (now : Int) : IsTrans CPCand (cpLE now) := by
  constructor
  intro a b c hab hbc
  unfold cpLE cpKeyLE at hab hbc ⊢
  omega

/-- `candidates.sort(key=...)` — a stable ascending sort by the 3-key
tuple. -/
def criticalPathSorted (tasks : List DTask) (now : Int) : List CPCand :=
  (cpCandidates tasks now).insertionSort (cpLE now)

/-- `critical_path_items = [... for ... in candidates[:5]]`. -/
def criticalPath (tasks : List DTask) (now : Int) : List CPCand :=
  (criticalPathSorted tasks now).take 5

theorem cpCandidateOf_eq_some {tasks : List DTask} {now : Int} {t : DTask} {c : CPCand}
    (h : cpCandidateOf tasks now t = some c) :
    (incompleteDependents tasks t.id).isEmpty = false ∧
    ¬ t.status = TStatus.complete ∧
    c.task = t ∧
    c.dependents = sortByDue now (incompleteDependents tasks t.id) ∧
    c.count = (incompleteDependents tasks t.id).length ∧
    c.flag = overdueFlag now t := by
  rw [cpCandidateOf] at h
  split at h
  · exact absurd h (by simp)
  · next hne =>
      split at h
      · exact absurd h (by simp)
      · next hst =>
          cases h
          refine ⟨by simpa using hne, by simpa using hst, rfl, rfl, rfl, rfl⟩

theorem exists_incomplete_dependent {tasks : List DTask} {b : Nat}
    (h : (incompleteDependents tasks b).isEmpty = false) :
    ∃ u ∈ tasks, ¬ u.status = TStatus.complete ∧ b ∈ u.deps := by
  have hne : incompleteDependents tasks b ≠ [] := by
    intro hc
    rw [incompleteDependents] at hc
    rw [incompleteDependents, hc] at h
    simp at h
  obtain ⟨u, hu⟩ := List.exists_mem_of_ne_nil _ hne
  rw [incompleteDependents, List.mem_filter] at hu
  obtain ⟨hu1, hu2⟩ := hu
  rw [Bool.and_eq_true] at hu2
  refine ⟨u, hu1, ?_, ?_⟩
  · have := hu2.2
    simp at this
    exact this
  · have := hu2.1
    simpa using this

theorem incompleteDependents_isEmpty_false {tasks : List DTask} {b : Nat}
    {u : DTask} (hu : u ∈ tasks) (hst : ¬ u.status = TStatus.complete)
    (hd : b ∈ u.deps) : (incompleteDependents tasks b).isEmpty = false := by
  have hmem : u ∈ incompleteDependents tasks b := by
    rw [incompleteDependents, List.mem_filter]
    refine ⟨hu, ?_⟩
    rw [Bool.and_eq_true]
    constructor
    · simpa using hd
    · simpa using hst
  cases hemp : (incompleteDependents tasks b).isEmpty with
  | false => rfl
  | true =>
    rw [List.isEmpty_iff] at hemp
    rw [hemp] at hmem
    exact absurd hmem (List.not_mem_nil u)

theorem overdueFlag_eq_zero_iff (now : Int) (t : DTask) :
    (overdueFlag now t = 0 ↔ ∃ d, t.due = some d ∧ d < now) := by
  rw [overdueFlag]
  cases hd : t.due with
  | none => simp
  | some d =>
    by_cases h : d < now
    · simp [h]
    · simp [h]

/-- C7, counterexample: with `now = 0`, a blocker due 3651 days in the future
(id 1) and a blocker with no due date (id 3), each with one incomplete
dependent, the code ranks the missing-due blocker FIRST, because a missing
due date is keyed as `now + 3650 days`, which is smaller than the real due
date — whereas the claim's "missing due dates treated as infinitely far"
predicts the order `[1, 3]`. -/
theorem c7_counterexample_far_future :
    (criticalPath
      [⟨1, .in_progress, some 315446400, []⟩,
       ⟨3, .in_progress, none, []⟩,
       ⟨2, .in_progress, none, [1]⟩,
       ⟨4, .in_progress, none, [3]⟩] 0).map (fun c => c.task.id) = [3, 1] ∧
    ([3, 1] : List Nat) ≠ [1, 3] :=
  ⟨by decide, by decide⟩

/-- C7, amended: the critical-path ranking considers exactly the incomplete
tasks having at least one incomplete direct dependent; each candidate carries
`blocked_count` and an overdue flag that is 0 iff the blocker's own due date
exists and is before `now`; the ranking is the stable ascending sort of the
candidates by the 3-key tuple `(overdueFlag, dueKey, -dependentCount)` where
`dueKey` replaces a missing due date by `now + 3650 days` (NOT infinity: a
due date further out than 3650 days sorts after a missing one), truncated to
the first 5; consequently every overdue blocker ranks before every
non-overdue blocker, in particular an overdue blocker with 2 incomplete
dependents before a non-overdue one with 3. -/
theorem c7_amended_critical_path (tasks : List DTask) (now : Int) :
    (∀ t : DTask, (∃ c ∈ cpCandidates tasks now, c.task = t) ↔
      (t ∈ tasks ∧ ¬ t.status = TStatus.complete ∧
       ∃ u ∈ tasks, ¬ u.status = TStatus.complete ∧ t.id ∈ u.deps)) ∧
    (∀ c ∈ cpCandidates tasks now,
      c.count = (incompleteDependents tasks c.task.id).length ∧
      (c.flag = 0 ↔ ∃ d, c.task.due = some d ∧ d < now)) ∧
    List.Sorted (cpLE now) (criticalPathSorted tasks now) ∧
    (criticalPathSorted tasks now).Perm (cpCandidates tasks now) ∧
    criticalPath tasks now = (criticalPathSorted tasks now).take 5 ∧
    (∀ (i j : Nat) (hi : i < (criticalPathSorted tasks now).length)
       (hj : j < (criticalPathSorted tasks now).length), i < j →
       ((criticalPathSorted tasks now).get ⟨j, hj⟩).flag = 0 →
       ((criticalPathSorted tasks now).get ⟨i, hi⟩).flag = 0) := by
  refine ⟨?_, ?_, ?_, ?_, rfl, ?_⟩
  · intro t
    constructor
    · rintro ⟨c, hcmem, hct⟩
      obtain ⟨t', ht', hf⟩ := List.mem_filterMap.mp hcmem
      obtain ⟨hemp, hst, htask, -, -, -⟩ := cpCandidateOf_eq_some hf
      have htt : t = t' := by rw [← hct, htask]
      subst htt
      exact ⟨ht', hst, exists_incomplete_dependent hemp⟩
    · rintro ⟨ht, hst, u, hu, hust, hud⟩
      have hemp := incompleteDependents_isEmpty_false hu hust hud
      refine ⟨⟨t, sortByDue now (incompleteDependents tasks t.id),
        (incompleteDependents tasks t.id).length, overdueFlag now t⟩, ?_, rfl⟩
      refine List.mem_filterMap.mpr ⟨t, ht, ?_⟩
      rw [cpCandidateOf, if_neg (by rw [hemp]; exact Bool.false_ne_true),
        if_neg (by simpa using hst)]
  · intro c hc
    obtain ⟨t', ht', hf⟩ := List.mem_filterMap.mp hc
    obtain ⟨-, -, htask, -, hcount, hflag⟩ := cpCandidateOf_eq_some hf
    rw [htask, hcount, hflag]
    exact ⟨rfl, overdueFlag_eq_zero_iff now t'⟩
  · exact List.sorted_insertionSort (cpLE now) (cpCandidates tasks now)
  · exact List.perm_insertionSort (cpLE now) (cpCandidates tasks now)
  · intro i j hi hj hij hjflag
    have hs : List.Sorted (cpLE now) (criticalPathSorted tasks now) :=
      List.sorted_insertionSort (cpLE now) (cpCandidates tasks now)
    rw [List.Sorted, List.pairwise_iff_getElem] at hs
    have hr' : cpLE now ((criticalPathSorted tasks now).get ⟨i, hi⟩)
        ((criticalPathSorted tasks now).get ⟨j, hj⟩) := hs i j hi hj hij
    rw [cpLE, cpKeyLE] at hr'
    have h1 : (cpKey now ((criticalPathSorted tasks now).get ⟨i, hi⟩)).1 =
        ((criticalPathSorted tasks now).get ⟨i, hi⟩).flag := rfl
    have h2 : (cpKey now ((criticalPathSorted tasks now).get ⟨j, hj⟩)).1 =
        ((criticalPathSorted tasks now).get ⟨j, hj⟩).flag := rfl
    omega
